import Mathlib

/-!
Verification development for the DeepVariant direct-phasing engine
(`deepvariant/direct_phasing.h`).

The repository ships only the class header; the data model (ReadSupportInfo,
AlleleInfo, the Score table, ReadIndex) and the two equality operators are
embedded directly from the header.  The bodies of `PhaseReads`, `Build`,
`Prune` and the dynamic-programming scorer are not part of the sources, so
they are modelled from the specification (each such definition carries a
doc comment starting with "Modelled from the spec:").
-/

namespace DirectPhasing

/-- Embedded from the header: `using ReadIndex = uint16_t;`.  Read indices
are 16-bit unsigned integers; converting a wider counter to `ReadIndex`
reduces it modulo 2^16. -/
def UINT16_MOD : Nat := 65536

/-- Conversion of a read counter (the position of the read in the input
list) to a `ReadIndex` value, with the wrap-around of `uint16_t`. -/
def assignReadIndex (i : Nat) : Nat := i % UINT16_MOD

/-- Allele types used by the engine (substitution, insertion, deletion,
reference, other), as enumerated in the spec's data model. -/
inductive AlleleType where
  | substitution
  | insertion
  | deletion
  | reference
  | other
deriving DecidableEq

/-- Embedded from the header: `struct ReadSupportInfo` with fields
`read_index`, `is_low_quality`, `is_first_allele`. -/
structure ReadSupportInfo where
  read_index : Nat
  is_low_quality : Bool
  is_first_allele : Bool
deriving DecidableEq

/-- Embedded from the header (lines 71-73): `ReadSupportInfo::operator==`
compares `read_index` and `is_low_quality` only. -/
def ReadSupportInfo.beq (a rs : ReadSupportInfo) : Bool :=
  (rs.read_index == a.read_index) && (rs.is_low_quality == a.is_low_quality)

/-- Element-wise comparison of two `std::vector<ReadSupportInfo>` values
using `ReadSupportInfo::operator==`, as instantiated by the C++
`std::vector::operator==`. -/
def readSupportListBeq : List ReadSupportInfo → List ReadSupportInfo → Bool
  | [], [] => true
  | x :: xs, y :: ys => ReadSupportInfo.beq x y && readSupportListBeq xs ys
  | _, _ => false

/-- Embedded from the header: `struct AlleleInfo` with fields `type`,
`position`, `bases`, `read_support`. -/
structure AlleleInfo where
  type : AlleleType
  position : Int
  bases : String
  read_support : List ReadSupportInfo
deriving DecidableEq

/-- Embedded from the header (lines 85-88): `operator==(const AlleleInfo&,
const AlleleInfo&)` compares `type`, `position`, `bases` and
`read_support`. -/
def alleleInfoEq (lhs rhs : AlleleInfo) : Bool :=
  (lhs.type == rhs.type) && (lhs.position == rhs.position) &&
  (lhs.bases == rhs.bases) &&
  readSupportListBeq lhs.read_support rhs.read_support

/-- Modelled from the spec: one entry of a candidate's per-allele support
list, carrying the supporting read's name and a low-quality indicator
(spec section 6, the shape of `DeepVariantCall_ReadSupport` used by
`PhaseReads`). -/
structure SupportEntry where
  read_name : String
  is_low_quality : Bool
deriving DecidableEq

/-- Modelled from the spec: one alternate allele of a candidate site, with
its base sequence and supporting reads (spec sections 3 and 6). -/
structure AltAllele where
  bases : String
  support : List SupportEntry
deriving DecidableEq

/-- Modelled from the spec: one candidate variant site of the region, with
its genomic position and its observed alleles (spec sections 3 and 6,
the shape of `DeepVariantCall` consumed by `PhaseReads`). -/
structure Candidate where
  position : Int
  alleles : List AltAllele
deriving DecidableEq

/-- Modelled from the spec: an input read record, identifiable by name
(spec section 6, the shape of `nucleus::genomics::v1::Read`). -/
structure Read where
  name : String
deriving DecidableEq

/-- Modelled from the spec: the read index registry `read_to_index_` maps a
read name to the index of the first read of that name in the input read
list (duplicate names denote the same read, spec section 4.1), converted
to `ReadIndex` with the `uint16_t` wrap. -/
def resolveIndex (reads : List Read) (nm : String) : Option Nat :=
  (reads.findIdx? (fun r => r.name == nm)).map assignReadIndex

/-- Modelled from the spec: `PhaseReads` fails when a read referenced by a
candidate's support list cannot be found in the read list (spec sections
6 and 7); this predicate is the corresponding validity check. -/
def allSupportsResolved (cands : List Candidate) (reads : List Read) : Bool :=
  cands.all fun c => c.alleles.all fun a =>
    a.support.all fun s => (resolveIndex reads s.read_name).isSome

/-- Modelled from the spec: a position is phasing-eligible when it yields
more than one allele; positions with a single allele are homozygous and
excluded from the phasing computation (spec sections 3 and 4.2). -/
def eligibleCandidates (cands : List Candidate) : List Candidate :=
  cands.filter fun c => 2 ≤ c.alleles.length

/-- A vertex of the allele graph as seen by the scorer: its arena index
(creation order, spec section 9) and the set of read indices supporting
its allele. -/
structure VertexRec where
  vid : Nat
  support : Finset Nat
deriving DecidableEq

/-- Modelled from the spec: the set of read indices supporting one allele,
obtained by resolving the allele's support names through the read index
registry and dropping names that do not resolve. -/
def alleleSupportSet (reads : List Read) (a : AltAllele) : Finset Nat :=
  a.support.foldl
    (fun s e =>
      match resolveIndex reads e.read_name with
      | some i => insert i s
      | none => s) ∅

/-- Modelled from the spec: vertices of one phasing-eligible candidate,
with arena indices assigned sequentially starting at `base`. -/
def buildLayer (reads : List Read) (base : Nat) (c : Candidate) :
    List VertexRec :=
  (List.range c.alleles.length).map fun i =>
    ⟨base + i, match c.alleles[i]? with
               | some a => alleleSupportSet reads a
               | none => ∅⟩

/-- Modelled from the spec: the graph layers, one per phasing-eligible
candidate in input order, with globally sequential vertex indices. -/
def buildLayersFrom (reads : List Read) : Nat → List Candidate →
    List (List VertexRec)
  | _, [] => []
  | base, c :: rest =>
    buildLayer reads base c ::
      buildLayersFrom reads (base + c.alleles.length) rest

/-- Modelled from the spec: `Build` restricted to what the scorer needs,
namely the per-position vertex layers of the allele graph over the
phasing-eligible candidates. -/
def buildLayers (cands : List Candidate) (reads : List Read) :
    List (List VertexRec) :=
  buildLayersFrom reads 0 (eligibleCandidates cands)

/-- Embedded from the header: `struct Score` holds the cumulative score,
the two predecessor vertices (`from[2]`, here the predecessor table key,
`none` for a seed entry) and the two per-phase read-support sets. -/
structure ScoreEntry where
  score : Nat
  fromKey : Option (Nat × Nat)
  rs1 : Finset Nat
  rs2 : Finset Nat
deriving DecidableEq

/-- The score table `scores_`, mapping a vertex pair to its best Score. -/
abbrev ScoreTable : Type := List ((Nat × Nat) × ScoreEntry)

/-- Lookup of a key in the score table. -/
def findEntry (t : ScoreTable) (k : Nat × Nat) : Option ScoreEntry :=
  (List.find? (fun ke => decide (ke.1 = k)) t).map (fun ke => ke.2)

/-- Whether a new Score displaces the Score currently stored under the
same key: always when the key is free, and only on a strictly larger
score otherwise (on a tie the entry already present wins: the pinned
deterministic tie-break, spec sections 4.4 and 9). -/
def keepNew : Option ScoreEntry → ScoreEntry → Bool
  | none, _ => true
  | some old, e => decide (old.score < e.score)

/-- Modelled from the spec: store a Score under a key, keeping only the
maximum-scoring entry per key. -/
def insertScore (t : ScoreTable) (k : Nat × Nat) (e : ScoreEntry) :
    ScoreTable :=
  if keepNew (findEntry t k) e then
    (k, e) :: List.filter (fun ke => !(decide (ke.1 = k))) t
  else t

/-- Fold `insertScore` over a list of keyed entries. -/
def insertAll (t : ScoreTable) (l : List ((Nat × Nat) × ScoreEntry)) :
    ScoreTable :=
  l.foldl (fun acc ke => insertScore acc ke.1 ke.2) t

/-- All unordered pairs of distinct elements of a list, each pair listed
once in list order. -/
def allPairs : List VertexRec → List (VertexRec × VertexRec)
  | [] => []
  | v :: rest => rest.map (fun w => (v, w)) ++ allPairs rest

/-- Orientation of a vertex pair so that the smaller arena index comes
first; this canonical orientation realises the unordered-pair keying of
`scores_`. -/
def orient (v w : VertexRec) : VertexRec × VertexRec :=
  if v.vid ≤ w.vid then (v, w) else (w, v)

/-- The canonical score-table key of a vertex pair. -/
def keyOf (v w : VertexRec) : Nat × Nat :=
  ((orient v w).1.vid, (orient v w).2.vid)

/-- Modelled from the spec: the seed Score of an unordered vertex pair at
the first phasing-eligible position (spec section 4.4, initial
transition).  The two read-credit sets are seeded from the two vertices'
own support, partitioned with phase-1 preference so that a read
supporting both alleles is credited to phase 1 only. -/
def seedEntry (v w : VertexRec) : ScoreEntry :=
  { score := v.support.card + (w.support \ v.support).card
    fromKey := none
    rs1 := v.support
    rs2 := w.support \ v.support }

/-- Modelled from the spec: the seed entries for the first layer, one per
unordered pair of its vertices. -/
def seedCandidates (verts : List VertexRec) :
    List ((Nat × Nat) × ScoreEntry) :=
  (allPairs verts).map fun p =>
    let q := orient p.1 p.2
    ((q.1.vid, q.2.vid), seedEntry q.1 q.2)

/-- Modelled from the spec: propagation of a Score along an edge pair to
the head vertices `w1` (phase 1) and `w2` (phase 2) (spec section 4.4).
Each phase keeps the reads already credited to it and gains the reads
first seen at this position (`fresh`) that support the new vertex,
partitioned with phase-1 preference; reads that switch phase support gain
no new credit. -/
def propEntry (k : Nat × Nat) (e : ScoreEntry) (fresh : Finset Nat)
    (w1 w2 : VertexRec) : ScoreEntry :=
  let n1 := e.rs1 ∪ ((fresh \ e.rs2) ∩ w1.support)
  let n2 := e.rs2 ∪ ((fresh \ n1) ∩ w2.support)
  { score := e.score + (n1 ∩ w1.support).card + (n2 ∩ w2.support).card
    fromKey := some k
    rs1 := n1
    rs2 := n2 }

/-- Modelled from the spec: all propagated entries from the previous
layer's vertex pairs (the tails, looked up in the table) to the current
layer's vertex pairs (the heads). -/
def propCandidates (t : ScoreTable) (prev cur : List VertexRec)
    (fresh : Finset Nat) : List ((Nat × Nat) × ScoreEntry) :=
  (allPairs prev).flatMap fun p =>
    match findEntry t (keyOf p.1 p.2) with
    | none => []
    | some e =>
      (allPairs cur).map fun q =>
        (keyOf q.1 q.2,
         propEntry (keyOf p.1 p.2) e fresh (orient q.1 q.2).1
           (orient q.1 q.2).2)

/-- The union of the support sets of a layer's vertices. -/
def layerReads (l : List VertexRec) : Finset Nat :=
  l.foldl (fun s v => s ∪ v.support) ∅

/-- The scorer state: the score table, the reads seen at the layers
already processed, and the vertices of the last processed layer. -/
structure ScorerState where
  table : ScoreTable
  seen : Finset Nat
  lastLayer : List VertexRec

/-- Modelled from the spec: one propagation step of the scorer, advancing
from the last processed layer to the layer `cur`. -/
def scoreStep (s : ScorerState) (cur : List VertexRec) : ScorerState :=
  let fresh := layerReads cur \ s.seen
  { table := insertAll s.table (propCandidates s.table s.lastLayer cur fresh)
    seen := s.seen ∪ layerReads cur
    lastLayer := cur }

/-- Modelled from the spec: the whole dynamic-programming scorer, seeding
the first layer and propagating through the remaining layers in position
order. -/
def runScorer (layers : List (List VertexRec)) : ScorerState :=
  match layers with
  | [] => { table := [], seen := ∅, lastLayer := [] }
  | l0 :: rest =>
    rest.foldl scoreStep
      { table := insertAll [] (seedCandidates l0)
        seen := layerReads l0
        lastLayer := l0 }

/-- One comparison step of the terminal-entry search: look the pair up in
the table and keep the better of it and the best entry so far; on a tie
the earlier pair in enumeration order wins. -/
def pickStep (t : ScoreTable) (acc : Option ((Nat × Nat) × ScoreEntry))
    (p : VertexRec × VertexRec) : Option ((Nat × Nat) × ScoreEntry) :=
  match findEntry t (keyOf p.1 p.2) with
  | none => acc
  | some e =>
    match acc with
    | none => some (keyOf p.1 p.2, e)
    | some be =>
      if be.2.score < e.score then some (keyOf p.1 p.2, e) else acc

/-- Modelled from the spec: the maximum-scoring terminal entry over the
last layer's vertex pairs, ties broken deterministically in favour of the
first pair in enumeration order. -/
def pickBest (s : ScorerState) : Option ((Nat × Nat) × ScoreEntry) :=
  (allPairs s.lastLayer).foldl (pickStep s.table) none

/-- Modelled from the spec: backtracking through the predecessor links of
the winning Score, collecting the visited entries (spec section 4.5);
`fuel` bounds the walk by the number of layers. -/
def backtrack (t : ScoreTable) : Nat → Option (Nat × Nat) → List ScoreEntry
  | 0, _ => []
  | _ + 1, none => []
  | fuel + 1, some k =>
    match findEntry t k with
    | none => []
    | some e => e :: backtrack t fuel e.fromKey

/-- Modelled from the spec: the chain of Score entries of the winning
partition, from the terminal entry back to the seed. -/
def winningChain (cands : List Candidate) (reads : List Read) :
    List ScoreEntry :=
  match pickBest (runScorer (buildLayers cands reads)) with
  | none => []
  | some ke =>
    ke.2 ::
      backtrack (runScorer (buildLayers cands reads)).table
        (buildLayers cands reads).length ke.2.fromKey

/-- Modelled from the spec: the phase label of one read index given the
winning chain: 1 if some visited entry credits it to phase 1, else 2 if
some visited entry credits it to phase 2, else 0 (spec section 4.6). -/
def labelOfRead (chain : List ScoreEntry) (ri : Nat) : Nat :=
  if chain.any (fun e => decide (ri ∈ e.rs1)) then 1
  else if chain.any (fun e => decide (ri ∈ e.rs2)) then 2
  else 0

/-- Modelled from the spec: the label assigned to the i-th input read. -/
def readLabel (cands : List Candidate) (reads : List Read) (i : Nat) :
    Nat :=
  labelOfRead (winningChain cands reads) (assignReadIndex i)

/-- Modelled from the spec: `DirectPhasing::PhaseReads`.  Aborts with an
error status when a candidate's support names a read absent from the read
list (spec sections 6 and 7); otherwise returns one label per input read
in input order, produced by the build / score / backtrack / label
pipeline (all-zero when the region has no phasing-eligible position). -/
def PhaseReads (cands : List Candidate) (reads : List Read) :
    Except String (List Nat) :=
  if allSupportsResolved cands reads then
    Except.ok ((List.range reads.length).map (readLabel cands reads))
  else
    Except.error "Read from candidate support is not found among input reads"

/-- Modelled from the spec: the graph as seen by `Prune`: a vertex list, a
distinguished source vertex and weighted directed edges, the weight of an
edge being the number of reads supporting both endpoint alleles. -/
structure PruneGraph where
  vertices : List Nat
  source : Nat
  edges : List (Nat × Nat × Nat)
deriving DecidableEq

/-- The edges whose weight reaches the minimum-support threshold. -/
def survivingEdges (g : PruneGraph) (t : Nat) : List (Nat × Nat × Nat) :=
  g.edges.filter (fun e => decide (t ≤ e.2.2))

/-- One breadth-first expansion step of the reachable set along a list of
edges. -/
def reachStep (es : List (Nat × Nat × Nat)) (s : Finset Nat) : Finset Nat :=
  es.foldl (fun acc e => if e.1 ∈ s then insert e.2.1 acc else acc) s

/-- Iterated expansion of the reachable set. -/
def reachSet (es : List (Nat × Nat × Nat)) : Nat → Finset Nat → Finset Nat
  | 0, s => s
  | n + 1, s => reachSet es n (reachStep es s)

/-- The vertices reachable from the source through surviving edges. -/
def prunedReach (g : PruneGraph) (t : Nat) : Finset Nat :=
  reachSet (survivingEdges g t) g.vertices.length {g.source}

/-- Modelled from the spec: `DirectPhasing::Prune` at minimum-support
threshold `t`: removes edges whose weight falls below the threshold and
any vertices (and incident edges) left unreachable from the source (spec
section 4.3). -/
def Prune (g : PruneGraph) (t : Nat) : PruneGraph :=
  { vertices := g.vertices.filter (fun v => decide (v ∈ prunedReach g t))
    source := g.source
    edges := g.edges.filter (fun e =>
      decide (t ≤ e.2.2) && decide (e.1 ∈ prunedReach g t) &&
        decide (e.2.1 ∈ prunedReach g t)) }

/-- The pointwise relation realised by `ReadSupportInfo::operator==`:
equal read indices and equal low-quality flags (the first-allele flag is
ignored). -/
def ReadSupportEqRel (x y : ReadSupportInfo) : Prop :=
  x.read_index = y.read_index ∧ x.is_low_quality = y.is_low_quality

lemma readSupportBeq_iff (x y : ReadSupportInfo) :
    ReadSupportInfo.beq x y = true ↔ ReadSupportEqRel x y := by
  unfold ReadSupportInfo.beq ReadSupportEqRel
  constructor
  · intro h
    simp only [Bool.and_eq_true, beq_iff_eq] at h
    exact ⟨h.1.symm, h.2.symm⟩
  · intro h
    simp only [Bool.and_eq_true, beq_iff_eq]
    exact ⟨h.1.symm, h.2.symm⟩

lemma readSupportListBeq_iff (xs ys : List ReadSupportInfo) :
    readSupportListBeq xs ys = true ↔ List.Forall₂ ReadSupportEqRel xs ys := by
  induction xs generalizing ys with
  | nil =>
    cases ys with
    | nil => simp [readSupportListBeq]
    | cons y ys => simp [readSupportListBeq]
  | cons x xs ih =>
    cases ys with
    | nil => simp [readSupportListBeq]
    | cons y ys =>
      simp only [readSupportListBeq, Bool.and_eq_true, List.forall₂_cons]
      rw [readSupportBeq_iff, ih]

lemma findEntry_mem {t : ScoreTable} {k : Nat × Nat} {e : ScoreEntry}
    (h : findEntry t k = some e) : (k, e) ∈ t := by
  unfold findEntry at h
  cases hf : List.find? (fun ke => decide (ke.1 = k)) t with
  | none => rw [hf] at h; simp at h
  | some ke =>
    rw [hf] at h
    have h2 : ke.2 = e := by simpa using h
    have hmem : ke ∈ t := List.mem_of_find?_eq_some hf
    have hp := List.find?_some hf
    have hkey : ke.1 = k := by simpa using hp
    have hx : (k, e) = ke := by
      obtain ⟨a, b⟩ := ke
      simp only [Prod.mk.injEq]
      exact ⟨hkey.symm, h2.symm⟩
    rw [hx]
    exact hmem

lemma findEntry_eq_none {t : ScoreTable} {k : Nat × Nat}
    (h : findEntry t k = none) : ∀ ke ∈ t, ke.1 ≠ k := by
  intro ke hke
  unfold findEntry at h
  cases hf : List.find? (fun p => decide (p.1 = k)) t with
  | none =>
    have := List.find?_eq_none.mp hf ke hke
    simpa using this
  | some p => rw [hf] at h; simp at h

lemma mem_insertScore {t : ScoreTable} {k : Nat × Nat} {e : ScoreEntry}
    {x : (Nat × Nat) × ScoreEntry} (h : x ∈ insertScore t k e) :
    x = (k, e) ∨ x ∈ t := by
  unfold insertScore at h
  split at h
  · rcases List.mem_cons.mp h with h | h
    · exact Or.inl h
    · exact Or.inr (List.mem_filter.mp h).1
  · exact Or.inr h

lemma mem_insertAll {l : List ((Nat × Nat) × ScoreEntry)} {t : ScoreTable}
    {x : (Nat × Nat) × ScoreEntry} (h : x ∈ insertAll t l) :
    x ∈ t ∨ x ∈ l := by
  induction l generalizing t with
  | nil => exact Or.inl h
  | cons ke l ih =>
    have h2 : x ∈ insertAll (insertScore t ke.1 ke.2) l := h
    rcases ih h2 with h3 | h3
    · rcases mem_insertScore h3 with h4 | h4
      · subst h4; exact Or.inr (List.mem_cons_self _ _)
      · exact Or.inl h4
    · right; exact List.mem_cons_of_mem _ h3

lemma orient_le (v w : VertexRec) :
    (orient v w).1.vid ≤ (orient v w).2.vid := by
  unfold orient
  split
  case isTrue h => exact h
  case isFalse h => show w.vid ≤ v.vid; omega

lemma seedEntry_disjoint (v w : VertexRec) :
    Disjoint (seedEntry v w).rs1 (seedEntry v w).rs2 := by
  simp only [seedEntry]
  rw [Finset.disjoint_left]
  intro a ha hb
  exact (Finset.mem_sdiff.mp hb).2 ha

lemma propEntry_disjoint {k : Nat × Nat} {e : ScoreEntry}
    (fresh : Finset Nat) (w1 w2 : VertexRec)
    (he : Disjoint e.rs1 e.rs2) :
    Disjoint (propEntry k e fresh w1 w2).rs1
      (propEntry k e fresh w1 w2).rs2 := by
  simp only [propEntry]
  rw [Finset.disjoint_left]
  intro a ha hb
  rcases Finset.mem_union.mp hb with hb1 | hb1
  · rcases Finset.mem_union.mp ha with ha1 | ha1
    · exact (Finset.disjoint_left.mp he ha1) hb1
    · exact (Finset.mem_sdiff.mp (Finset.mem_inter.mp ha1).1).2 hb1
  · exact (Finset.mem_sdiff.mp (Finset.mem_inter.mp hb1).1).2 ha

/-- The joint invariant of the score table: every entry has disjoint
per-phase read sets and a canonically ordered key. -/
def tableInv (t : ScoreTable) : Prop :=
  ∀ ke ∈ t, Disjoint ke.2.rs1 ke.2.rs2 ∧ ke.1.1 ≤ ke.1.2

lemma seedCandidates_inv (l : List VertexRec) :
    ∀ ke ∈ seedCandidates l,
      Disjoint ke.2.rs1 ke.2.rs2 ∧ ke.1.1 ≤ ke.1.2 := by
  intro ke hke
  rcases List.mem_map.mp hke with ⟨p, _, hp⟩
  rw [← hp]
  exact ⟨seedEntry_disjoint _ _, orient_le p.1 p.2⟩

lemma propCandidates_inv {t : ScoreTable} {prev cur : List VertexRec}
    {fresh : Finset Nat} (ht : tableInv t) :
    ∀ ke ∈ propCandidates t prev cur fresh,
      Disjoint ke.2.rs1 ke.2.rs2 ∧ ke.1.1 ≤ ke.1.2 := by
  intro ke hke
  rcases List.mem_flatMap.mp hke with ⟨p, _, hp⟩
  cases hf : findEntry t (keyOf p.1 p.2) with
  | none =>
    rw [hf] at hp
    simp at hp
  | some e =>
    rw [hf] at hp
    rcases List.mem_map.mp hp with ⟨q, _, hq⟩
    rw [← hq]
    have he : Disjoint e.rs1 e.rs2 := (ht _ (findEntry_mem hf)).1
    exact ⟨propEntry_disjoint _ _ _ he, orient_le q.1 q.2⟩

lemma insertAll_inv {t : ScoreTable} {l : List ((Nat × Nat) × ScoreEntry)}
    (ht : tableInv t)
    (hl : ∀ ke ∈ l, Disjoint ke.2.rs1 ke.2.rs2 ∧ ke.1.1 ≤ ke.1.2) :
    tableInv (insertAll t l) := by
  intro ke hke
  rcases mem_insertAll hke with h | h
  · exact ht _ h
  · exact hl _ h

lemma scoreStep_inv {s : ScorerState} (cur : List VertexRec)
    (h : tableInv s.table) : tableInv (scoreStep s cur).table := by
  unfold scoreStep
  exact insertAll_inv h (propCandidates_inv h)

lemma foldl_scoreStep_inv (layers : List (List VertexRec))
    (s : ScorerState) (h : tableInv s.table) :
    tableInv (layers.foldl scoreStep s).table := by
  induction layers generalizing s with
  | nil => exact h
  | cons cur rest ih => exact ih _ (scoreStep_inv cur h)

lemma runScorer_inv (layers : List (List VertexRec)) :
    tableInv (runScorer layers).table := by
  cases layers with
  | nil => intro ke hke; simp [runScorer] at hke
  | cons l0 rest =>
    exact foldl_scoreStep_inv rest _
      (insertAll_inv (fun ke hke => by simp at hke) (seedCandidates_inv l0))

/-- The keys of the score table are pairwise distinct. -/
def tableKeysNodup (t : ScoreTable) : Prop :=
  (t.map (fun ke => ke.1)).Nodup

lemma insertScore_nodup {t : ScoreTable} {k : Nat × Nat} {e : ScoreEntry}
    (h : tableKeysNodup t) : tableKeysNodup (insertScore t k e) := by
  unfold insertScore
  split
  · unfold tableKeysNodup
    rw [List.map_cons]
    refine List.nodup_cons.mpr ⟨?_, ?_⟩
    · intro hk
      rcases List.mem_map.mp hk with ⟨ke, hke, hkeq⟩
      have hpred := (List.mem_filter.mp hke).2
      rw [hkeq] at hpred
      simp at hpred
    · have hsub : List.Sublist
          (List.filter (fun ke => !(decide (ke.1 = k))) t) t :=
        List.filter_sublist t
      exact List.Nodup.sublist (hsub.map _) h
  · exact h

lemma insertAll_nodup {l : List ((Nat × Nat) × ScoreEntry)}
    {t : ScoreTable} (h : tableKeysNodup t) :
    tableKeysNodup (insertAll t l) := by
  induction l generalizing t with
  | nil => exact h
  | cons ke l ih => exact ih (insertScore_nodup h)

lemma runScorer_nodup (layers : List (List VertexRec)) :
    tableKeysNodup (runScorer layers).table := by
  have hnil : tableKeysNodup ([] : ScoreTable) := List.nodup_nil
  cases layers with
  | nil => exact hnil
  | cons l0 rest =>
    have hbase : tableKeysNodup (insertAll [] (seedCandidates l0)) :=
      insertAll_nodup hnil
    have : ∀ (ls : List (List VertexRec)) (s : ScorerState),
        tableKeysNodup s.table →
        tableKeysNodup (ls.foldl scoreStep s).table := by
      intro ls
      induction ls with
      | nil => intro s hs; exact hs
      | cons cur ls2 ih =>
        intro s hs
        exact ih _ (insertAll_nodup hs)
    exact this rest _ hbase

lemma keys_nodup_unique {t : ScoreTable} (h : tableKeysNodup t)
    {k : Nat × Nat} {a b : ScoreEntry}
    (ha : (k, a) ∈ t) (hb : (k, b) ∈ t) : a = b := by
  induction t with
  | nil => cases ha
  | cons ke t ih =>
    have hn := List.nodup_cons.mp h
    rcases List.mem_cons.mp ha with ha1 | ha1 <;>
      rcases List.mem_cons.mp hb with hb1 | hb1
    · rw [← ha1] at hb1
      injection hb1 with h1 h2
      exact h2.symm
    · exfalso
      apply hn.1
      rw [← ha1]
      exact List.mem_map.mpr ⟨(k, b), hb1, rfl⟩
    · exfalso
      apply hn.1
      rw [← hb1]
      exact List.mem_map.mpr ⟨(k, a), ha1, rfl⟩
    · exact ih hn.2 ha1 hb1

lemma backtrack_sub (t : ScoreTable) :
    ∀ (fuel : Nat) (ok : Option (Nat × Nat)) (e : ScoreEntry),
      e ∈ backtrack t fuel ok → ∃ k, (k, e) ∈ t := by
  intro fuel
  induction fuel with
  | zero => intro ok e he; cases he
  | succ n ih =>
    intro ok e he
    cases ok with
    | none => cases he
    | some k =>
      revert he
      unfold backtrack
      cases hf : findEntry t k with
      | none => intro he; cases he
      | some e0 =>
        intro he
        rcases List.mem_cons.mp he with he1 | he1
        · exact ⟨k, he1 ▸ findEntry_mem hf⟩
        · exact ih _ _ he1

lemma pickStep_inv {t : ScoreTable} {acc : Option ((Nat × Nat) × ScoreEntry)}
    {p : VertexRec × VertexRec} {ke : (Nat × Nat) × ScoreEntry}
    (hacc : ∀ ke2, acc = some ke2 → ∃ k, (k, ke2.2) ∈ t)
    (h : pickStep t acc p = some ke) : ∃ k, (k, ke.2) ∈ t := by
  unfold pickStep at h
  split at h
  · exact hacc ke h
  next e hf =>
    split at h
    · have hx : ke = (keyOf p.1 p.2, e) := by
        injection h with h1
        exact h1.symm
      exact ⟨keyOf p.1 p.2, hx ▸ findEntry_mem hf⟩
    next be =>
      split at h
      · have hx : ke = (keyOf p.1 p.2, e) := by
          injection h with h1
          exact h1.symm
        exact ⟨keyOf p.1 p.2, hx ▸ findEntry_mem hf⟩
      · exact hacc ke h

lemma pickBest_mem (s : ScorerState) :
    ∀ ke, pickBest s = some ke → ∃ k, (k, ke.2) ∈ s.table := by
  have haux : ∀ (l : List (VertexRec × VertexRec))
      (acc : Option ((Nat × Nat) × ScoreEntry)),
      (∀ ke, acc = some ke → ∃ k, (k, ke.2) ∈ s.table) →
      ∀ ke, l.foldl (pickStep s.table) acc = some ke →
        ∃ k, (k, ke.2) ∈ s.table := by
    intro l
    induction l with
    | nil => intro acc hacc ke hke; exact hacc ke hke
    | cons p l ih =>
      intro acc hacc ke hke
      exact ih _ (fun ke2 h2 => pickStep_inv hacc h2) ke hke
  intro ke hke
  exact haux _ none (fun ke2 h => by cases h) ke hke

lemma winningChain_sub (cands : List Candidate) (reads : List Read) :
    ∀ e ∈ winningChain cands reads,
      ∃ k, (k, e) ∈ (runScorer (buildLayers cands reads)).table := by
  intro e he
  unfold winningChain at he
  cases hb : pickBest (runScorer (buildLayers cands reads)) with
  | none =>
    rw [hb] at he
    cases he
  | some ke =>
    rw [hb] at he
    rcases List.mem_cons.mp he with he1 | he1
    · rcases pickBest_mem _ ke hb with ⟨k, hk⟩
      exact ⟨k, he1 ▸ hk⟩
    · exact backtrack_sub _ _ _ _ he1

lemma labelOfRead_cases (chain : List ScoreEntry) (ri : Nat) :
    labelOfRead chain ri = 0 ∨ labelOfRead chain ri = 1 ∨
      labelOfRead chain ri = 2 := by
  unfold labelOfRead
  split
  · right; left; rfl
  · split
    · right; right; rfl
    · left; rfl

lemma winningChain_degenerate {cands : List Candidate} {reads : List Read}
    (h : eligibleCandidates cands = []) : winningChain cands reads = [] := by
  have hb : buildLayers cands reads = [] := by
    unfold buildLayers
    rw [h]
    rfl
  unfold winningChain
  rw [hb]
  rfl

lemma length_filter_mono {α : Type} (l : List α) (p q : α → Bool)
    (h : ∀ x ∈ l, p x = true → q x = true) :
    (l.filter p).length ≤ (l.filter q).length := by
  induction l with
  | nil => simp
  | cons x l ih =>
    have ih2 := ih (fun y hy => h y (List.mem_cons_of_mem _ hy))
    by_cases hp : p x = true
    · have hq := h x (List.mem_cons_self _ _) hp
      rw [List.filter_cons, List.filter_cons, if_pos hp, if_pos hq]
      simpa using ih2
    · rw [List.filter_cons, if_neg hp]
      by_cases hq : q x = true
      · rw [List.filter_cons, if_pos hq]
        simp only [List.length_cons]
        omega
      · rw [List.filter_cons, if_neg hq]
        exact ih2

lemma mem_reachStep {es : List (Nat × Nat × Nat)} {s : Finset Nat}
    {x : Nat} :
    x ∈ reachStep es s ↔ x ∈ s ∨ ∃ e ∈ es, e.1 ∈ s ∧ e.2.1 = x := by
  have aux : ∀ (acc : Finset Nat),
      (x ∈ es.foldl
          (fun acc e => if e.1 ∈ s then insert e.2.1 acc else acc) acc) ↔
        x ∈ acc ∨ ∃ e ∈ es, e.1 ∈ s ∧ e.2.1 = x := by
    induction es with
    | nil => intro acc; simp
    | cons e es ih =>
      intro acc
      rw [List.foldl_cons, ih]
      by_cases he : e.1 ∈ s
      · rw [if_pos he]
        simp only [Finset.mem_insert, List.mem_cons]
        constructor
        · rintro (⟨h1 | h1⟩ | ⟨f, hf, hfs, hfx⟩)
          · exact Or.inr ⟨e, Or.inl rfl, he, h1.symm⟩
          · exact Or.inl h1
          · exact Or.inr ⟨f, Or.inr hf, hfs, hfx⟩
        · rintro (h1 | ⟨f, hf | hf, hfs, hfx⟩)
          · exact Or.inl (Or.inr h1)
          · subst hf; exact Or.inl (Or.inl hfx.symm)
          · exact Or.inr ⟨f, hf, hfs, hfx⟩
      · rw [if_neg he]
        simp only [List.mem_cons]
        constructor
        · rintro (h1 | ⟨f, hf, hfs, hfx⟩)
          · exact Or.inl h1
          · exact Or.inr ⟨f, Or.inr hf, hfs, hfx⟩
        · rintro (h1 | ⟨f, hf | hf, hfs, hfx⟩)
          · exact Or.inl h1
          · subst hf; exact absurd hfs he
          · exact Or.inr ⟨f, hf, hfs, hfx⟩
  exact aux s

lemma reachStep_mono {es1 es2 : List (Nat × Nat × Nat)}
    {s1 s2 : Finset Nat} (hes : ∀ e ∈ es2, e ∈ es1) (hs : s2 ⊆ s1) :
    reachStep es2 s2 ⊆ reachStep es1 s1 := by
  intro x hx
  rw [mem_reachStep] at hx
  rw [mem_reachStep]
  rcases hx with hx | ⟨e, he, hesrc, hdst⟩
  · exact Or.inl (hs hx)
  · exact Or.inr ⟨e, hes e he, hs hesrc, hdst⟩

lemma reachSet_mono {es1 es2 : List (Nat × Nat × Nat)}
    (hes : ∀ e ∈ es2, e ∈ es1) :
    ∀ (n : Nat) {s1 s2 : Finset Nat}, s2 ⊆ s1 →
      reachSet es2 n s2 ⊆ reachSet es1 n s1 := by
  intro n
  induction n with
  | zero => intro s1 s2 hs; exact hs
  | succ m ih =>
    intro s1 s2 hs
    exact ih (reachStep_mono hes hs)

lemma survivingEdges_mono {g : PruneGraph} {t1 t2 : Nat} (h : t1 ≤ t2) :
    ∀ e ∈ survivingEdges g t2, e ∈ survivingEdges g t1 := by
  intro e he
  rcases List.mem_filter.mp he with ⟨hmem, hw⟩
  refine List.mem_filter.mpr ⟨hmem, ?_⟩
  have hw2 : t2 ≤ e.2.2 := of_decide_eq_true hw
  exact decide_eq_true (Nat.le_trans h hw2)

lemma prunedReach_mono {g : PruneGraph} {t1 t2 : Nat} (h : t1 ≤ t2) :
    prunedReach g t2 ⊆ prunedReach g t1 :=
  reachSet_mono (survivingEdges_mono h) g.vertices.length
    (Finset.Subset.refl _)

/-- C1: whenever `PhaseReads` succeeds, it returns exactly one integer
phase label per input read, positionally matching the input read
sequence, and every label is 0, 1 or 2. -/
theorem phase_reads_output_shape (cands : List Candidate)
    (reads : List Read) (ls : List Nat)
    (h : PhaseReads cands reads = Except.ok ls) :
    ls.length = reads.length ∧
    (∀ l ∈ ls, l = 0 ∨ l = 1 ∨ l = 2) ∧
    ∀ i, i < reads.length → ls[i]? = some (readLabel cands reads i) := by
  unfold PhaseReads at h
  split at h
  · have hls : ls = (List.range reads.length).map (readLabel cands reads) := by
      injection h with h1
      exact h1.symm
    subst hls
    refine ⟨by simp, ?_, ?_⟩
    · intro l hl
      rcases List.mem_map.mp hl with ⟨i, _, hi⟩
      rw [← hi]
      unfold readLabel
      exact labelOfRead_cases _ _
    · intro i hi
      rw [List.getElem?_map, List.getElem?_range hi]
      rfl
  · cases h

/-- C1 witness: on the empty candidate list and a one-read input,
`PhaseReads` succeeds and the returned label list has the input's
length. -/
theorem phase_reads_output_shape_witness :
    PhaseReads [] [⟨"r"⟩] = Except.ok [0] ∧
      ([0] : List Nat).length = ([⟨"r"⟩] : List Read).length :=
  ⟨rfl, (phase_reads_output_shape [] [⟨"r"⟩] [0] rfl).1⟩

/-- C2: when some candidate's read-support list names a read absent from
the input read list, `PhaseReads` reports an error status and returns no
label sequence. -/
theorem phase_reads_error_on_unresolved (cands : List Candidate)
    (reads : List Read)
    (h : ∃ c ∈ cands, ∃ a ∈ c.alleles, ∃ s ∈ a.support,
          resolveIndex reads s.read_name = none) :
    PhaseReads cands reads =
      Except.error
        "Read from candidate support is not found among input reads" := by
  have hfalse : ¬(allSupportsResolved cands reads = true) := by
    intro hall
    rcases h with ⟨c, hc, a, ha, s, hs, hnone⟩
    have h1 := List.all_eq_true.mp hall c hc
    have h2 := List.all_eq_true.mp h1 a ha
    have h3 := List.all_eq_true.mp h2 s hs
    rw [hnone] at h3
    simp at h3
  unfold PhaseReads
  rw [if_neg hfalse]

/-- C2 witness: a candidate referencing the read "ghost" while the read
list is empty makes `PhaseReads` fail. -/
theorem phase_reads_error_on_unresolved_witness :
    PhaseReads [⟨0, [⟨"A", [⟨"ghost", false⟩]⟩]⟩] [] =
      Except.error
        "Read from candidate support is not found among input reads" :=
  phase_reads_error_on_unresolved [⟨0, [⟨"A", [⟨"ghost", false⟩]⟩]⟩] []
    (by decide)

/-- C3: `PhaseReads` is deterministic: two invocations with identical
candidate and read sequences produce identical output label sequences
(the model pins the deterministic tie-breaks that the spec requires: on
equal scores the entry already stored wins, and the terminal search
prefers the earlier pair in enumeration order). -/
theorem phase_reads_deterministic (c1 c2 : List Candidate)
    (r1 r2 : List Read) (hc : c1 = c2) (hr : r1 = r2) :
    PhaseReads c1 r1 = PhaseReads c2 r2 := by
  rw [hc, hr]

/-- C3 witness: the two invocations agree on a concrete input. -/
theorem phase_reads_deterministic_witness :
    PhaseReads [] [⟨"r"⟩, ⟨"s"⟩] = PhaseReads [] [⟨"r"⟩, ⟨"s"⟩] :=
  phase_reads_deterministic [] [] [⟨"r"⟩, ⟨"s"⟩] [⟨"r"⟩, ⟨"s"⟩] rfl rfl

/-- C4: every Score entry stored in the score table has disjoint phase-1
and phase-2 read-identifier sets, and consequently no read is
simultaneously credited to both phases at any position of the winning
partition. -/
theorem score_read_support_disjoint (cands : List Candidate)
    (reads : List Read) :
    (∀ ke ∈ (runScorer (buildLayers cands reads)).table,
        Disjoint ke.2.rs1 ke.2.rs2) ∧
    ∀ e ∈ winningChain cands reads, ∀ r : Nat,
      ¬(r ∈ e.rs1 ∧ r ∈ e.rs2) := by
  refine ⟨fun ke hke => (runScorer_inv _ ke hke).1, ?_⟩
  intro e he r hr
  rcases winningChain_sub cands reads e he with ⟨k, hk⟩
  have hd := (runScorer_inv (buildLayers cands reads) _ hk).1
  exact (Finset.disjoint_left.mp hd hr.1) hr.2

/-- C4 witness: the Score entry stored for the concrete two-allele region
has disjoint phase read sets. -/
theorem score_read_support_disjoint_witness :
    (((0, 1), seedEntry ⟨0, {0}⟩ ⟨1, {1}⟩) ∈
        (runScorer (buildLayers
          [⟨7, [⟨"A", [⟨"r0", false⟩]⟩, ⟨"C", [⟨"r1", false⟩]⟩]⟩]
          [⟨"r0"⟩, ⟨"r1"⟩])).table) ∧
      Disjoint (seedEntry (⟨0, {0}⟩ : VertexRec) ⟨1, {1}⟩).rs1
        (seedEntry (⟨0, {0}⟩ : VertexRec) ⟨1, {1}⟩).rs2 :=
  ⟨by decide,
   (score_read_support_disjoint
      [⟨7, [⟨"A", [⟨"r0", false⟩]⟩, ⟨"C", [⟨"r1", false⟩]⟩]⟩]
      [⟨"r0"⟩, ⟨"r1"⟩]).1
     ((0, 1), seedEntry ⟨0, {0}⟩ ⟨1, {1}⟩) (by decide)⟩

/-- C5: on an input with no phasing-eligible position (all candidate
positions homozygous, or empty candidate input) whose support references
resolve, `PhaseReads` does not fail and assigns label 0 to every input
read. -/
theorem phase_reads_degenerate (cands : List Candidate)
    (reads : List Read)
    (hok : allSupportsResolved cands reads = true)
    (hdeg : eligibleCandidates cands = []) :
    PhaseReads cands reads = Except.ok (reads.map fun _ => 0) := by
  unfold PhaseReads
  rw [if_pos hok]
  have h1 : (List.range reads.length).map (readLabel cands reads)
      = List.replicate reads.length 0 := by
    apply List.eq_replicate_iff.mpr
    refine ⟨by simp, ?_⟩
    intro b hb
    rcases List.mem_map.mp hb with ⟨i, _, hi⟩
    rw [← hi]
    unfold readLabel
    rw [winningChain_degenerate hdeg]
    rfl
  have h2 : reads.map (fun _ => (0 : Nat))
      = List.replicate reads.length 0 := by
    apply List.eq_replicate_iff.mpr
    refine ⟨by simp, ?_⟩
    intro b hb
    rcases List.mem_map.mp hb with ⟨r, _, hr⟩
    exact hr.symm
  rw [h1, h2]

/-- C5 witness: a single homozygous candidate with resolvable support
yields the all-zero label list. -/
theorem phase_reads_degenerate_witness :
    PhaseReads [⟨5, [⟨"A", [⟨"r0", false⟩]⟩]⟩] [⟨"r0"⟩] =
      Except.ok [0] := by
  have h := phase_reads_degenerate [⟨5, [⟨"A", [⟨"r0", false⟩]⟩]⟩]
    [⟨"r0"⟩] (by decide) (by decide)
  exact h

/-- C6: pruning is monotone in the minimum-support threshold: for
thresholds t1 < t2, the graph pruned at t2 has no more vertices and no
more edges than the graph pruned at t1. -/
theorem prune_monotone (g : PruneGraph) (t1 t2 : Nat) (h : t1 < t2) :
    (Prune g t2).vertices.length ≤ (Prune g t1).vertices.length ∧
    (Prune g t2).edges.length ≤ (Prune g t1).edges.length := by
  have hle : t1 ≤ t2 := Nat.le_of_lt h
  have hreach := prunedReach_mono (g := g) hle
  constructor
  · apply length_filter_mono
    intro v _ hv
    exact decide_eq_true (hreach (of_decide_eq_true hv))
  · apply length_filter_mono
    intro e _ he
    have h1 := Bool.and_eq_true_iff.mp he
    have h2 := Bool.and_eq_true_iff.mp h1.1
    have hw : t2 ≤ e.2.2 := of_decide_eq_true h2.1
    have hsrc := hreach (of_decide_eq_true h2.2)
    have hdst := hreach (of_decide_eq_true h1.2)
    refine Bool.and_eq_true_iff.mpr ⟨Bool.and_eq_true_iff.mpr ⟨?_, ?_⟩, ?_⟩
    · exact decide_eq_true (Nat.le_trans hle hw)
    · exact decide_eq_true hsrc
    · exact decide_eq_true hdst

/-- C6 witness: on a concrete three-vertex chain, pruning at threshold 2
leaves no more vertices than pruning at threshold 1. -/
theorem prune_monotone_witness :
    (1 : Nat) < 2 ∧
      (Prune ⟨[0, 1, 2], 0, [(0, 1, 1), (1, 2, 2)]⟩ 2).vertices.length ≤
        (Prune ⟨[0, 1, 2], 0, [(0, 1, 1), (1, 2, 2)]⟩ 1).vertices.length :=
  ⟨by decide,
   (prune_monotone ⟨[0, 1, 2], 0, [(0, 1, 1), (1, 2, 2)]⟩ 1 2 (by decide)).1⟩

/-- C7 counterexample: two `AlleleInfo` values agreeing on type, position
and bases but differing in their read-support lists do not compare equal
under `operator==`, contradicting the claim that equality disregards the
read-support lists. -/
theorem allele_eq_ignores_support_counterexample :
    ((⟨AlleleType.substitution, 0, "A", []⟩ : AlleleInfo).type =
        (⟨AlleleType.substitution, 0, "A",
          [⟨0, false, false⟩]⟩ : AlleleInfo).type ∧
      (⟨AlleleType.substitution, 0, "A", []⟩ : AlleleInfo).position =
        (⟨AlleleType.substitution, 0, "A",
          [⟨0, false, false⟩]⟩ : AlleleInfo).position ∧
      (⟨AlleleType.substitution, 0, "A", []⟩ : AlleleInfo).bases =
        (⟨AlleleType.substitution, 0, "A",
          [⟨0, false, false⟩]⟩ : AlleleInfo).bases) ∧
    alleleInfoEq ⟨AlleleType.substitution, 0, "A", []⟩
      ⟨AlleleType.substitution, 0, "A", [⟨0, false, false⟩]⟩ = false := by
  decide

/-- C7 (amended): `AlleleInfo` equality holds exactly when the types,
positions, base sequences and read-support lists are all equal, the
read-support lists being compared element-wise by read index and
low-quality flag (ignoring the first-allele flags). -/
theorem allele_eq_iff (a b : AlleleInfo) :
    alleleInfoEq a b = true ↔
      a.type = b.type ∧ a.position = b.position ∧ a.bases = b.bases ∧
        List.Forall₂ ReadSupportEqRel a.read_support b.read_support := by
  unfold alleleInfoEq
  simp only [Bool.and_eq_true, beq_iff_eq, and_assoc]
  rw [readSupportListBeq_iff]

/-- C8: `ReadSupportInfo::operator==` holds exactly when the read indices
and the low-quality flags agree, independently of the `is_first_allele`
fields. -/
theorem read_support_eq_ignores_first_allele (a b : ReadSupportInfo) :
    ReadSupportInfo.beq a b = true ↔
      a.read_index = b.read_index ∧
        a.is_low_quality = b.is_low_quality :=
  readSupportBeq_iff a b

/-- C9: the score table realises unordered-pair keying: every stored key
is canonically ordered, so the table never holds distinct entries for
(v1, v2) and (v2, v1); when both orderings occur they coincide and carry
one single Score. -/
theorem scores_unordered_pair_key (cands : List Candidate)
    (reads : List Read) (v1 v2 : Nat) (e1 : ScoreEntry)
    (h1 : ((v1, v2), e1) ∈ (runScorer (buildLayers cands reads)).table) :
    v1 ≤ v2 ∧
      ∀ e2 : ScoreEntry,
        ((v2, v1), e2) ∈ (runScorer (buildLayers cands reads)).table →
          v1 = v2 ∧ e1 = e2 := by
  have hc1 : v1 ≤ v2 := (runScorer_inv _ _ h1).2
  refine ⟨hc1, fun e2 h2 => ?_⟩
  have hc2 : v2 ≤ v1 := (runScorer_inv _ _ h2).2
  have hv : v1 = v2 := Nat.le_antisymm hc1 hc2
  subst hv
  exact ⟨rfl, keys_nodup_unique (runScorer_nodup _) h1 h2⟩

/-- C9 witness: the concrete two-allele region stores its Score under the
canonically ordered key (0, 1). -/
theorem scores_unordered_pair_key_witness :
    (((0, 1), seedEntry ⟨0, {0}⟩ ⟨1, {1}⟩) ∈
        (runScorer (buildLayers
          [⟨7, [⟨"A", [⟨"r0", false⟩]⟩, ⟨"C", [⟨"r1", false⟩]⟩]⟩]
          [⟨"r0"⟩, ⟨"r1"⟩])).table) ∧ (0 : Nat) ≤ 1 :=
  ⟨by decide,
   (scores_unordered_pair_key
      [⟨7, [⟨"A", [⟨"r0", false⟩]⟩, ⟨"C", [⟨"r1", false⟩]⟩]⟩]
      [⟨"r0"⟩, ⟨"r1"⟩] 0 1 (seedEntry ⟨0, {0}⟩ ⟨1, {1}⟩) (by decide)).1⟩

/-- C10: read identifiers are 16-bit: every assigned `ReadIndex` is below
2^16 = 65536, and the assignment wraps modulo 2^16, so the reads at input
positions 0 and 65536 (which are distinct) receive the same identifier. -/
theorem read_index_uint16_wrap :
    (∀ i : Nat, assignReadIndex i < UINT16_MOD) ∧
      assignReadIndex 65536 = assignReadIndex 0 ∧ (65536 : Nat) ≠ 0 := by
  refine ⟨fun i => ?_, by decide, by decide⟩
  exact Nat.mod_lt i (by decide)

end DirectPhasing
